import Mathlib

/-!
# Verification of `rtrim` (src/main.rs) against its specification

Shallow embedding of the `rtrim` utility: the pure content transformer
`trim_trailing_whitespace`, and a filesystem-state model of `process_file`
and the single-file branch of `run`. Strings are modeled as `List Char`
(Rust `&str` is a sequence of Unicode scalar values); the filesystem is a
map from paths to entries, and fallible syscalls draw their outcomes from
an explicit oracle.
-/

namespace Rtrim

/-- Rust `char::is_whitespace`: the Unicode `White_Space` property,
which is what `str::trim_end` trims. -/
def isRustWhitespace (c : Char) : Bool :=
  c == '\u0009' || c == '\u000A' || c == '\u000B' || c == '\u000C' || c == '\u000D' ||
  c == ' ' || c == '\u0085' || c == '\u00A0' || c == '\u1680' ||
  (0x2000 ≤ c.toNat && c.toNat ≤ 0x200A) ||
  c == '\u2028' || c == '\u2029' || c == '\u202F' || c == '\u205F' || c == '\u3000'

/-- Rust `char::is_ascii_whitespace`: space, tab, newline, form feed,
carriage return.  Used only for the spec-worded variant of the
transformer (the spec speaks of "ASCII whitespace"). -/
def isAsciiWhitespace (c : Char) : Bool :=
  c == ' ' || c == '\u0009' || c == '\u000A' || c == '\u000C' || c == '\u000D'

/-- Rust `str::trim_end` with an explicit whitespace predicate:
remove the longest trailing run of characters satisfying `ws`. -/
def trimEndWith (ws : Char → Bool) (l : List Char) : List Char :=
  (l.reverse.dropWhile ws).reverse

/-- Rust `line.trim_end()` as used in `trim_trailing_whitespace`. -/
def trimEnd (l : List Char) : List Char :=
  trimEndWith isRustWhitespace l

/-- Rust `str::split_inclusive('\n')`: the pieces of the string, each
ending with `'\n'` except possibly the last; the empty string has no
pieces. -/
def splitInclusiveNl : List Char → List (List Char)
  | [] => []
  | c :: rest =>
    if c = '\n' then ['\n'] :: splitInclusiveNl rest
    else
      match splitInclusiveNl rest with
      | [] => [[c]]
      | p :: ps => (c :: p) :: ps

/-- `l.strip_suffix(c)` on a list of characters. -/
def stripSuffixChar (c : Char) (l : List Char) : Option (List Char) :=
  if l.getLast? = some c then some l.dropLast else none

/-- The per-piece map inside Rust `str::lines`: strip one trailing
`'\n'`, and if that succeeded also one trailing `'\r'`. -/
def linesMap (l : List Char) : List Char :=
  match stripSuffixChar '\n' l with
  | none => l
  | some l1 =>
    match stripSuffixChar '\r' l1 with
    | none => l1
    | some l2 => l2

/-- Rust `str::lines()`: split inclusively at `'\n'`, then drop each
piece's terminator (`"\n"` or `"\r\n"`). -/
def rustLines (s : List Char) : List (List Char) :=
  (splitInclusiveNl s).map linesMap

/-- Result of trimming operation (struct `TrimResult` in src/main.rs). -/
structure TrimResult where
  content : List Char
  modified : Bool
deriving DecidableEq

/-- `content.ends_with('\n')`. -/
def endsWithNl (s : List Char) : Prop :=
  s.getLast? = some '\n'

instance (s : List Char) : Decidable (endsWithNl s) := by
  unfold endsWithNl; infer_instance

/-- Shallow embedding of `trim_trailing_whitespace` (src/main.rs):
for each line of the input, push the `trim_end`-ed line followed by
`'\n'` onto the output and record whether the length changed; finally,
if the input did not end with `'\n'` and the output is nonempty, pop
the added trailing `'\n'`. -/
def trim_trailing_whitespace (content : List Char) : TrimResult :=
  let r := (rustLines content).foldl
    (fun acc line =>
      let trimmed := trimEnd line
      { content := acc.content ++ trimmed ++ ['\n'],
        modified := acc.modified || (trimmed.length != line.length) })
    { content := [], modified := false }
  if ¬ endsWithNl content ∧ r.content ≠ [] then
    { content := r.content.dropLast, modified := r.modified }
  else r

/-- Each line followed by a single `'\n'` terminator, concatenated. -/
def rejoin : List (List Char) → List Char
  | [] => []
  | l :: L => l ++ '\n' :: rejoin L

/-- The content transformer as the spec's words describe it, with the
whitespace predicate left as a parameter: for every line (terminator
excluded), strip trailing whitespace; reassemble the lines joined by a
single `'\n'` terminator; if the original buffer's final line had no
terminator the output also ends without one; `modified` is true iff
some line's trimmed length differs from its original length. -/
def trimSpecWith (ws : Char → Bool) (content : List Char) : TrimResult :=
  let ls := rustLines content
  let out := rejoin (ls.map (trimEndWith ws))
  { content := if ¬ endsWithNl content ∧ out ≠ [] then out.dropLast else out,
    modified := ls.any (fun l => (trimEndWith ws l).length != l.length) }

/-- A line on which the transformer is a no-op: it contains no `'\n'`
and has no trailing whitespace.  Every output line of the transformer
is of this shape. -/
def FixedLine (l : List Char) : Prop :=
  '\n' ∉ l ∧ trimEnd l = l

/-- Inputs consisting only of line terminators: concatenations of the
units `"\n"` and `"\r\n"`. -/
inductive TermOnly : List Char → Prop
  | nil : TermOnly []
  | lf {s : List Char} : TermOnly s → TermOnly ('\n' :: s)
  | crlf {s : List Char} : TermOnly s → TermOnly ('\r' :: '\n' :: s)

/-! ### Filesystem model for `process_file` and `run`

`process_file` mutates the filesystem, so we model the filesystem as a
map from paths to entries and the fallible syscalls (`File::create`,
`write_all`, `sync_all`, `set_permissions`, `rename`) as drawing their
success/failure outcome from an explicit oracle.  File contents are
modeled as decoded text (`List Char`); the UTF-8 binary check of
`process_file` therefore has no failing branch here (none of the
claims under verification concerns binary data).  `fs::remove_file`
on the just-created temporary file is modeled as succeeding (the code
discards its result).  -/

/-- Classification of a filesystem entry, as seen by
`fs::symlink_metadata` (which does not follow symlinks): a symlink, a
directory, a regular file with its text content and POSIX permission
bits, or some other special file. -/
inductive Entry where
  | symlink
  | dir
  | file (data : List Char) (mode : Nat)
  | other
deriving DecidableEq

/-- A filesystem state: which entry, if any, lives at each path. -/
def Fs := String → Option Entry

/-- Replace the entry at path `p`. -/
def Fs.update (fs : Fs) (p : String) (e : Option Entry) : Fs :=
  fun q => if q = p then e else fs q

/-- The `io::Error` values `process_file` can produce, one per fallible
step. -/
inductive PfError where
  | notFound
  | alreadyExists
  | createFail
  | writeFail
  | syncFail
  | chmodFail
  | renameFail
deriving DecidableEq

/-- Console output of `process_file` / `run`, in order. -/
inductive Msg where
  | skippedSymlink (p : String)
  | checking (p : String)
  | processed (p : String)
  | unchanged (p : String)
  | warnSymlink (p : String)
deriving DecidableEq

/-- Outcomes of the fallible syscalls inside the writer, in program
order: `File::create`, `write_all`, `sync_all`, `set_permissions`
(inside `preserve_permissions`), `fs::rename`. -/
structure Oracle where
  createOk : Bool
  writeOk : Bool
  syncOk : Bool
  chmodOk : Bool
  renameOk : Bool
deriving DecidableEq

/-- Permission bits of a freshly created file (`File::create`), before
`preserve_permissions` copies the original bits onto it.  The concrete
value is umask-dependent and irrelevant to the claims. -/
def createMode : Nat := 0o600

/-- Result of one `process_file` invocation: the returned
`io::Result`, the filesystem afterwards, and the console output. -/
structure PfResult where
  res : Except PfError Unit
  fs : Fs
  log : List Msg

/-- Shallow embedding of `process_file` (src/main.rs).  `p` is the
target path; `tp` is the temporary sibling path produced by
`generate_temp_path` (theorems assume `p ≠ tp`, which the naming
scheme guarantees).  Mirrors the source: symlink check, regular-file
check (`return Ok(())` otherwise), trim, and — only when `modified` —
the exists-check on the temporary path, create, write, sync,
permission copy (removing the temporary file on failure), and rename
(removing the temporary file on failure). -/
def process_file (verbose : Bool) (p tp : String) (orc : Oracle) (fs : Fs) : PfResult :=
  match fs p with
  | none => ⟨.error .notFound, fs, []⟩
  | some .symlink => ⟨.ok (), fs, if verbose then [.skippedSymlink p] else []⟩
  | some .dir => ⟨.ok (), fs, []⟩
  | some .other => ⟨.ok (), fs, []⟩
  | some (.file data mode) =>
    let log0 : List Msg := if verbose then [.checking p] else []
    let result := trim_trailing_whitespace data
    if result.modified then
      if (fs tp).isSome then ⟨.error .alreadyExists, fs, log0⟩
      else if ¬ orc.createOk then ⟨.error .createFail, fs, log0⟩
      else if ¬ orc.writeOk then
        ⟨.error .writeFail, fs.update tp (some (.file [] createMode)), log0⟩
      else if ¬ orc.syncOk then
        ⟨.error .syncFail, fs.update tp (some (.file result.content createMode)), log0⟩
      else if ¬ orc.chmodOk then
        ⟨.error .chmodFail, (fs.update tp (some (.file result.content createMode))).update tp none,
          log0⟩
      else if ¬ orc.renameOk then
        ⟨.error .renameFail, (fs.update tp (some (.file result.content mode))).update tp none,
          log0⟩
      else
        ⟨.ok (),
          ((fs.update tp (some (.file result.content mode))).update tp none).update p
            (some (.file result.content mode)),
          log0 ++ [.processed p]⟩
    else ⟨.ok (), fs, log0 ++ (if verbose then [.unchanged p] else [])⟩

/-- Shallow embedding of the `Mode::File` branch of `run`
(src/main.rs): read the target's metadata without following symlinks,
report and skip if it is a symlink (stdout notice when verbose, stderr
warning otherwise), and otherwise delegate to `process_file`. -/
def run_file (verbose : Bool) (p tp : String) (orc : Oracle) (fs : Fs) : PfResult :=
  match fs p with
  | none => ⟨.error .notFound, fs, []⟩
  | some e =>
    if e = .symlink then
      ⟨.ok (), fs, [if verbose then .skippedSymlink p else .warnSymlink p]⟩
    else process_file verbose p tp orc fs

example : trim_trailing_whitespace "hello world   \n".toList =
    ⟨"hello world\n".toList, true⟩ := by decide

example : trim_trailing_whitespace "line1   \nline2\t\nline3 \t \n".toList =
    ⟨"line1\nline2\nline3\n".toList, true⟩ := by decide

example : trim_trailing_whitespace "no newline at end   ".toList =
    ⟨"no newline at end".toList, true⟩ := by decide

example : trim_trailing_whitespace "text\n\n\n".toList =
    ⟨"text\n\n\n".toList, false⟩ := by decide

example : trim_trailing_whitespace "".toList = ⟨[], false⟩ := by decide

example : trim_trailing_whitespace "windows line\r\n".toList =
    ⟨"windows line\n".toList, false⟩ := by decide

/-! ### Elementary facts about `dropWhile`, `dropLast`, `getLast?` -/

theorem dropWhile_dropWhile (p : Char → Bool) :
    ∀ l : List Char, (l.dropWhile p).dropWhile p = l.dropWhile p
  | [] => rfl
  | c :: l => by
    by_cases h : p c
    · simp only [List.dropWhile_cons, h, if_true]
      exact dropWhile_dropWhile p l
    · simp [List.dropWhile_cons, h]

theorem head_dropWhile_not (p : Char → Bool) :
    ∀ (l : List Char) (c : Char), (l.dropWhile p).head? = some c → p c = false
  | [], c, h => by simp at h
  | b :: l, c, h => by
    by_cases hb : p b
    · exact head_dropWhile_not p l c (by simpa [List.dropWhile_cons, hb] using h)
    · rw [List.dropWhile_cons, if_neg hb, List.head?_cons] at h
      cases h
      exact Bool.eq_false_iff.2 hb

theorem mem_of_mem_dropWhile (p : Char → Bool) {a : Char} :
    ∀ {l : List Char}, a ∈ l.dropWhile p → a ∈ l
  | [], h => h
  | b :: l, h => by
    by_cases hb : p b
    · simp only [List.dropWhile_cons, hb, if_true] at h
      exact List.mem_cons_of_mem b (mem_of_mem_dropWhile p h)
    · simpa [List.dropWhile_cons, hb] using h

theorem mem_of_getLast?_eq {α : Type} {l : List α} {a : α} (h : l.getLast? = some a) :
    a ∈ l := by
  induction l with
  | nil => simp at h
  | cons b l ih =>
    cases l with
    | nil =>
      simp only [List.getLast?_singleton, Option.some.injEq] at h
      simp [h]
    | cons c l' =>
      rw [List.getLast?_cons_cons] at h
      exact List.mem_cons_of_mem b (ih h)

theorem mem_dropLast_or_getLast? {α : Type} {p : List α} {a : α} (h : a ∈ p) :
    a ∈ p.dropLast ∨ p.getLast? = some a := by
  induction p with
  | nil => cases h
  | cons b p ih =>
    cases p with
    | nil =>
      right
      rcases List.mem_singleton.1 h with rfl
      rfl
    | cons c p' =>
      rcases List.mem_cons.1 h with rfl | h'
      · left
        rw [List.dropLast_cons₂]
        exact List.mem_cons_self a _
      · rcases ih h' with hd | hg
        · left
          rw [List.dropLast_cons₂]
          exact List.mem_cons_of_mem b hd
        · right
          rw [List.getLast?_cons_cons]
          exact hg

theorem mem_of_mem_dropLast {α : Type} {p : List α} {a : α} (h : a ∈ p.dropLast) :
    a ∈ p :=
  (List.dropLast_sublist p).subset h

/-! ### Facts about `trimEndWith` -/

theorem trimEndWith_idem (ws : Char → Bool) (l : List Char) :
    trimEndWith ws (trimEndWith ws l) = trimEndWith ws l := by
  unfold trimEndWith
  rw [List.reverse_reverse, dropWhile_dropWhile]

theorem getLast?_trimEndWith (ws : Char → Bool) (l : List Char) (c : Char)
    (h : (trimEndWith ws l).getLast? = some c) : ws c = false := by
  unfold trimEndWith at h
  rw [List.getLast?_reverse] at h
  exact head_dropWhile_not ws _ c h

theorem mem_of_mem_trimEndWith {ws : Char → Bool} {l : List Char} {a : Char}
    (h : a ∈ trimEndWith ws l) : a ∈ l := by
  unfold trimEndWith at h
  rw [List.mem_reverse] at h
  exact List.mem_reverse.1 (mem_of_mem_dropWhile ws h)

theorem fixedLine_trimEnd {l : List Char} (h : '\n' ∉ l) : FixedLine (trimEnd l) :=
  ⟨fun hm => h (mem_of_mem_trimEndWith hm), trimEndWith_idem _ _⟩

theorem fixedLine_getLast {l : List Char} {c : Char} (hf : FixedLine l)
    (h : l.getLast? = some c) : isRustWhitespace c = false := by
  rw [← hf.2] at h
  exact getLast?_trimEndWith _ _ _ h

theorem fixedLine_not_cr {l : List Char} (hf : FixedLine l) : l.getLast? ≠ some '\r' := by
  intro h
  exact absurd (fixedLine_getLast hf h) (by decide)

/-! ### Facts about `splitInclusiveNl`, `linesMap`, `rustLines`, `rejoin` -/

theorem splitInclusiveNl_append_nl {l : List Char} (h : '\n' ∉ l) (s : List Char) :
    splitInclusiveNl (l ++ '\n' :: s) = (l ++ ['\n']) :: splitInclusiveNl s := by
  induction l with
  | nil => simp [splitInclusiveNl]
  | cons c l ih =>
    have hc : c ≠ '\n' := fun hh => h (hh ▸ List.mem_cons_self c l)
    have h' : '\n' ∉ l := fun hm => h (List.mem_cons_of_mem _ hm)
    simp only [List.cons_append, splitInclusiveNl, if_neg hc, List.append_eq, ih h']

theorem splitInclusiveNl_no_nl {l : List Char} (h : '\n' ∉ l) (hne : l ≠ []) :
    splitInclusiveNl l = [l] := by
  induction l with
  | nil => cases hne rfl
  | cons c l ih =>
    have hc : c ≠ '\n' := fun hh => h (hh ▸ List.mem_cons_self c l)
    have h' : '\n' ∉ l := fun hm => h (List.mem_cons_of_mem _ hm)
    by_cases hl : l = []
    · subst hl
      simp [splitInclusiveNl, hc]
    · simp only [splitInclusiveNl, if_neg hc, ih h' hl]

theorem splitInclusiveNl_dropLast_nl (s : List Char) :
    ∀ p ∈ splitInclusiveNl s, ∀ c ∈ p.dropLast, c ≠ '\n' := by
  induction s with
  | nil => simp [splitInclusiveNl]
  | cons a s ih =>
    by_cases ha : a = '\n'
    · subst ha
      simp only [splitInclusiveNl, if_pos rfl]
      intro p hp
      rcases List.mem_cons.1 hp with rfl | hp'
      · simp
      · exact ih p hp'
    · simp only [splitInclusiveNl, if_neg ha]
      cases hs : splitInclusiveNl s with
      | nil =>
        intro p hp
        rcases List.mem_cons.1 hp with rfl | hp'
        · simp
        · cases hp'
      | cons q qs =>
        intro p hp
        rcases List.mem_cons.1 hp with rfl | hp'
        · intro c hc
          cases q with
          | nil => simp at hc
          | cons b q' =>
            rw [List.dropLast_cons₂] at hc
            rcases List.mem_cons.1 hc with rfl | hc'
            · exact ha
            · exact ih (b :: q') (hs ▸ List.mem_cons_self _ _) c hc'
        · exact ih p (hs ▸ List.mem_cons_of_mem q hp')

theorem linesMap_concat {l : List Char} (h : l.getLast? ≠ some '\r') :
    linesMap (l ++ ['\n']) = l := by
  simp [linesMap, stripSuffixChar, List.getLast?_concat, List.dropLast_concat, h]

theorem linesMap_no_nl {l : List Char} (h : '\n' ∉ l) : linesMap l = l := by
  have h' : l.getLast? ≠ some '\n' := fun hh => h (mem_of_getLast?_eq hh)
  simp [linesMap, stripSuffixChar, h']

theorem not_nl_linesMap {p : List Char} (hp : ∀ c ∈ p.dropLast, c ≠ '\n') :
    '\n' ∉ linesMap p := by
  unfold linesMap stripSuffixChar
  by_cases h1 : p.getLast? = some '\n'
  · simp only [if_pos h1]
    by_cases h2 : p.dropLast.getLast? = some '\r'
    · simp only [if_pos h2]
      intro hm
      exact hp _ (mem_of_mem_dropLast hm) rfl
    · simp only [if_neg h2]
      intro hm
      exact hp _ hm rfl
  · simp only [if_neg h1]
    intro hm
    rcases mem_dropLast_or_getLast? hm with hd | hg
    · exact hp _ hd rfl
    · exact h1 hg

theorem not_nl_mem_rustLines (s : List Char) : ∀ l ∈ rustLines s, '\n' ∉ l := by
  intro l hl
  rw [rustLines, List.mem_map] at hl
  obtain ⟨p, hp, rfl⟩ := hl
  exact not_nl_linesMap (splitInclusiveNl_dropLast_nl s p hp)

theorem rejoin_eq_nil {L : List (List Char)} : rejoin L = [] ↔ L = [] := by
  cases L with
  | nil => simp [rejoin]
  | cons l L => simp [rejoin]

theorem getLast?_rejoin {L : List (List Char)} (h : L ≠ []) :
    (rejoin L).getLast? = some '\n' := by
  induction L with
  | nil => cases h rfl
  | cons l L ih =>
    by_cases hL : L = []
    · subst hL
      simp [rejoin]
    · show (l ++ '\n' :: rejoin L).getLast? = some '\n'
      rw [List.getLast?_append_of_ne_nil _ (by simp)]
      simp [List.getLast?_cons, ih hL]

theorem splitInclusiveNl_rejoin {L : List (List Char)} (h : ∀ l ∈ L, '\n' ∉ l) :
    splitInclusiveNl (rejoin L) = L.map (· ++ ['\n']) := by
  induction L with
  | nil => rfl
  | cons l L ih =>
    show splitInclusiveNl (l ++ '\n' :: rejoin L) = _
    rw [splitInclusiveNl_append_nl (h l (List.mem_cons_self _ _)),
      ih (fun x hx => h x (List.mem_cons_of_mem _ hx))]
    rfl

theorem splitInclusiveNl_rejoin_append {L : List (List Char)} {t : List Char}
    (h : ∀ l ∈ L, '\n' ∉ l) (ht : '\n' ∉ t) (htne : t ≠ []) :
    splitInclusiveNl (rejoin L ++ t) = L.map (· ++ ['\n']) ++ [t] := by
  induction L with
  | nil => simpa [rejoin] using splitInclusiveNl_no_nl ht htne
  | cons l L ih =>
    have e : rejoin (l :: L) ++ t = l ++ '\n' :: (rejoin L ++ t) := by
      show (l ++ '\n' :: rejoin L) ++ t = _
      simp
    rw [e, splitInclusiveNl_append_nl (h l (List.mem_cons_self _ _)),
      ih (fun x hx => h x (List.mem_cons_of_mem _ hx))]
    rfl

theorem rustLines_rejoin {L : List (List Char)} (h : ∀ l ∈ L, FixedLine l) :
    rustLines (rejoin L) = L := by
  rw [rustLines, splitInclusiveNl_rejoin (fun l hl => (h l hl).1), List.map_map]
  conv_rhs => rw [← List.map_id L]
  refine List.map_congr_left (fun l hl => ?_)
  exact linesMap_concat (fixedLine_not_cr (h l hl))

theorem rustLines_rejoin_append {L : List (List Char)} {t : List Char}
    (h : ∀ l ∈ L, FixedLine l) (ht : '\n' ∉ t) (htne : t ≠ []) :
    rustLines (rejoin L ++ t) = L ++ [t] := by
  rw [rustLines, splitInclusiveNl_rejoin_append (fun l hl => (h l hl).1) ht htne,
    List.map_append, List.map_map]
  congr 1
  · conv_rhs => rw [← List.map_id L]
    refine List.map_congr_left (fun l hl => ?_)
    exact linesMap_concat (fixedLine_not_cr (h l hl))
  · simp [linesMap_no_nl ht]

/-! ### The transformer agrees with its declarative description -/

theorem foldl_trim (ls : List (List Char)) :
    ∀ acc : TrimResult,
      ls.foldl
        (fun acc line =>
          let trimmed := trimEnd line
          { content := acc.content ++ trimmed ++ ['\n'],
            modified := acc.modified || (trimmed.length != line.length) }) acc
      = { content := acc.content ++ rejoin (ls.map trimEnd),
          modified := acc.modified || ls.any (fun l => (trimEnd l).length != l.length) } := by
  induction ls with
  | nil => intro acc; simp [rejoin]
  | cons l ls ih =>
    intro acc
    rw [List.foldl_cons, ih]
    simp [rejoin, Bool.or_assoc]

/-- The loop body of `trim_trailing_whitespace` computes exactly the
`join`-of-trimmed-lines together with the `any` of the length tests:
the code equals the declarative `trimSpecWith` at the predicate the
code actually uses, Rust `char::is_whitespace`. -/
theorem trim_eq_spec (s : List Char) :
    trim_trailing_whitespace s = trimSpecWith isRustWhitespace s := by
  unfold trim_trailing_whitespace trimSpecWith
  rw [foldl_trim]
  simp only [List.nil_append, Bool.false_or]
  rw [show trimEnd = trimEndWith isRustWhitespace from funext fun _ => rfl]
  split <;> rfl

theorem trim_content_eq (s : List Char) :
    (trim_trailing_whitespace s).content =
      if ¬ endsWithNl s ∧ rejoin ((rustLines s).map trimEnd) ≠ []
      then (rejoin ((rustLines s).map trimEnd)).dropLast
      else rejoin ((rustLines s).map trimEnd) := by
  rw [trim_eq_spec]
  rfl

theorem trim_modified_eq (s : List Char) :
    (trim_trailing_whitespace s).modified =
      (rustLines s).any (fun l => (trimEnd l).length != l.length) := by
  rw [trim_eq_spec]
  rfl

theorem fixedLine_mem_map_trimEnd {s : List Char} {t : List Char}
    (ht : t ∈ (rustLines s).map trimEnd) : FixedLine t := by
  rw [List.mem_map] at ht
  obtain ⟨l, hl, rfl⟩ := ht
  exact fixedLine_trimEnd (not_nl_mem_rustLines s l hl)

/-- On a list of fixed lines the length test fails everywhere. -/
theorem any_eq_false_of_fixed {L : List (List Char)} (h : ∀ l ∈ L, FixedLine l) :
    (L.any (fun l => (trimEnd l).length != l.length)) = false := by
  rw [List.any_eq_false]
  intro l hl
  rw [(h l hl).2]
  simp

/-- Retrimming fixed lines reproduces them. -/
theorem map_trimEnd_of_fixed {L : List (List Char)} (h : ∀ l ∈ L, FixedLine l) :
    L.map trimEnd = L := by
  conv_rhs => rw [← List.map_id L]
  exact List.map_congr_left (fun l hl => (h l hl).2)

theorem rejoin_append_singleton (L : List (List Char)) (t : List Char) :
    rejoin (L ++ [t]) = rejoin L ++ (t ++ ['\n']) := by
  induction L with
  | nil => simp [rejoin]
  | cons l L ihL =>
    show rejoin (l :: (L ++ [t])) = _
    rw [show rejoin (l :: (L ++ [t])) = l ++ '\n' :: rejoin (L ++ [t]) from rfl, ihL]
    simp [rejoin]

/-- The transformer is a no-op (with `modified = false`) on the
rejoined form of any list of fixed lines. -/
theorem trim_rejoin_fixed {L : List (List Char)} (h : ∀ l ∈ L, FixedLine l) :
    trim_trailing_whitespace (rejoin L) = ⟨rejoin L, false⟩ := by
  rw [trim_eq_spec, trimSpecWith]
  have hlines : rustLines (rejoin L) = L := rustLines_rejoin h
  have hmap : L.map (trimEndWith isRustWhitespace) = L := map_trimEnd_of_fixed h
  rw [hlines]
  refine congrArg₂ TrimResult.mk ?_ ?_
  · show (if ¬ endsWithNl (rejoin L) ∧ rejoin (L.map (trimEndWith isRustWhitespace)) ≠ []
      then _ else _) = rejoin L
    rw [hmap]
    by_cases hL : L = []
    · subst hL
      simp [rejoin]
    · rw [if_neg]
      intro hand
      exact hand.1 (getLast?_rejoin hL)
  · exact any_eq_false_of_fixed h

/-- The transformer is a no-op on `rejoin L ++ t` for fixed lines `L`
and a nonempty fixed unterminated final line `t`. -/
theorem trim_rejoin_append_fixed {L : List (List Char)} {t : List Char}
    (h : ∀ l ∈ L, FixedLine l) (ht : FixedLine t) (htne : t ≠ []) :
    trim_trailing_whitespace (rejoin L ++ t) = ⟨rejoin L ++ t, false⟩ := by
  rw [trim_eq_spec, trimSpecWith]
  have hlines : rustLines (rejoin L ++ t) = L ++ [t] :=
    rustLines_rejoin_append h ht.1 htne
  have hall : ∀ l ∈ L ++ [t], FixedLine l := by
    intro l hl
    rcases List.mem_append.1 hl with hl | hl
    · exact h l hl
    · rcases List.mem_singleton.1 hl with rfl
      exact ht
  have hmap : (L ++ [t]).map (trimEndWith isRustWhitespace) = L ++ [t] :=
    map_trimEnd_of_fixed hall
  rw [hlines]
  refine congrArg₂ TrimResult.mk ?_ ?_
  · show (if ¬ endsWithNl (rejoin L ++ t) ∧
        rejoin ((L ++ [t]).map (trimEndWith isRustWhitespace)) ≠ []
      then (rejoin ((L ++ [t]).map (trimEndWith isRustWhitespace))).dropLast else _)
      = rejoin L ++ t
    rw [hmap]
    have hnotnl : ¬ endsWithNl (rejoin L ++ t) := by
      intro hend
      unfold endsWithNl at hend
      rw [List.getLast?_append_of_ne_nil _ htne] at hend
      exact ht.1 (mem_of_getLast?_eq hend)
    have hne : rejoin (L ++ [t]) ≠ [] := by
      intro hh
      simpa using rejoin_eq_nil.1 hh
    rw [if_pos ⟨hnotnl, hne⟩]
    rw [rejoin_append_singleton, ← List.append_assoc, List.dropLast_concat]
  · exact any_eq_false_of_fixed hall

theorem splitInclusiveNl_cons_ne_nil (c : Char) (rest : List Char) :
    splitInclusiveNl (c :: rest) ≠ [] := by
  simp only [splitInclusiveNl]
  split
  · simp
  · split <;> simp

theorem rustLines_ne_nil {s : List Char} (h : s ≠ []) : rustLines s ≠ [] := by
  cases s with
  | nil => cases h rfl
  | cons c rest =>
    rw [rustLines]
    simp [splitInclusiveNl_cons_ne_nil c rest]

theorem rustLines_lf (s : List Char) : rustLines ('\n' :: s) = [] :: rustLines s := by
  rw [rustLines, rustLines]
  simp only [splitInclusiveNl, if_pos rfl, List.map_cons]
  rfl

theorem rustLines_crlf (s : List Char) :
    rustLines ('\r' :: '\n' :: s) = [] :: rustLines s := by
  rw [rustLines, rustLines]
  simp only [splitInclusiveNl, if_neg (by decide : ¬ ('\r' : Char) = '\n'), if_pos rfl,
    List.map_cons]
  rfl

theorem termOnly_lines_nil {s : List Char} (h : TermOnly s) :
    ∀ l ∈ rustLines s, l = [] := by
  induction h with
  | nil => intro l hl; cases hl
  | lf _ ih =>
    intro l hl
    rw [rustLines_lf] at hl
    rcases List.mem_cons.1 hl with rfl | hl'
    · rfl
    · exact ih l hl'
  | crlf _ ih =>
    intro l hl
    rw [rustLines_crlf] at hl
    rcases List.mem_cons.1 hl with rfl | hl'
    · rfl
    · exact ih l hl'

/-- Every line of the transformer's output is the trim of some input
line. -/
theorem mem_map_trimEnd_of_mem_trim {s l : List Char}
    (hl : l ∈ rustLines (trim_trailing_whitespace s).content) :
    l ∈ (rustLines s).map trimEnd := by
  have hfix : ∀ t ∈ (rustLines s).map trimEnd, FixedLine t :=
    fun t ht => fixedLine_mem_map_trimEnd ht
  rw [trim_content_eq s] at hl
  by_cases hc : ¬ endsWithNl s ∧ rejoin ((rustLines s).map trimEnd) ≠ []
  · rw [if_pos hc] at hl
    have hTne : (rustLines s).map trimEnd ≠ [] := fun hh => hc.2 (by rw [hh]; rfl)
    obtain ⟨T₀, t, hdecomp⟩ : ∃ T₀ t, (rustLines s).map trimEnd = T₀ ++ [t] :=
      ⟨_, _, (List.dropLast_append_getLast hTne).symm⟩
    rw [hdecomp, rejoin_append_singleton, ← List.append_assoc, List.dropLast_concat] at hl
    have hfixL : ∀ x ∈ T₀, FixedLine x := by
      intro x hx
      exact hfix x (by rw [hdecomp]; exact List.mem_append.2 (Or.inl hx))
    have hfixt : FixedLine t := by
      exact hfix t (by rw [hdecomp]; exact List.mem_append.2 (Or.inr (List.mem_singleton.2 rfl)))
    by_cases htne : t = []
    · subst htne
      rw [List.append_nil, rustLines_rejoin hfixL] at hl
      rw [hdecomp]
      exact List.mem_append.2 (Or.inl hl)
    · rw [rustLines_rejoin_append hfixL hfixt.1 htne] at hl
      rw [hdecomp]
      exact hl
  · rw [if_neg hc, rustLines_rejoin hfix] at hl
    exact hl

/-- Core idempotence: retrimming the transformer's own output changes
nothing and reports `modified = false`. -/
theorem trim_idem_core (s : List Char) :
    trim_trailing_whitespace (trim_trailing_whitespace s).content =
      ⟨(trim_trailing_whitespace s).content, false⟩ := by
  have hfix : ∀ t ∈ (rustLines s).map trimEnd, FixedLine t :=
    fun t ht => fixedLine_mem_map_trimEnd ht
  rw [trim_content_eq s]
  by_cases hc : ¬ endsWithNl s ∧ rejoin ((rustLines s).map trimEnd) ≠ []
  · rw [if_pos hc]
    have hTne : (rustLines s).map trimEnd ≠ [] := fun hh => hc.2 (by rw [hh]; rfl)
    obtain ⟨T₀, t, hdecomp⟩ : ∃ T₀ t, (rustLines s).map trimEnd = T₀ ++ [t] :=
      ⟨_, _, (List.dropLast_append_getLast hTne).symm⟩
    rw [hdecomp, rejoin_append_singleton, ← List.append_assoc, List.dropLast_concat]
    have hfixL : ∀ x ∈ T₀, FixedLine x := by
      intro x hx
      exact hfix x (by rw [hdecomp]; exact List.mem_append.2 (Or.inl hx))
    have hfixt : FixedLine t := by
      exact hfix t (by rw [hdecomp]; exact List.mem_append.2 (Or.inr (List.mem_singleton.2 rfl)))
    by_cases htne : t = []
    · subst htne
      simpa using trim_rejoin_fixed hfixL
    · exact trim_rejoin_append_fixed hfixL hfixt htne
  · rw [if_neg hc]
    exact trim_rejoin_fixed hfix

/-! ### Claim C2 -/

/-- Claim C2 (counterexample).  On the two-character input
`[U+00A0, '\n']` — a line whose only character is NO-BREAK SPACE,
which is Unicode whitespace but not ASCII whitespace — the code trims
the line and reports `modified = true`, whereas the claim's words
("strips trailing ASCII whitespace") predict the line untouched and
`modified = false`.  The claim as stated is therefore false. -/
theorem trim_ascii_cex :
    trim_trailing_whitespace ['\u00A0', '\n'] ≠
      trimSpecWith isAsciiWhitespace ['\u00A0', '\n'] ∧
    trim_trailing_whitespace ['\u00A0', '\n'] = ⟨['\n'], true⟩ ∧
    trimSpecWith isAsciiWhitespace ['\u00A0', '\n'] = ⟨['\u00A0', '\n'], false⟩ := by
  decide

/-- Claim C2 (amended): ("ASCII whitespace" → whitespace in the sense of
Rust `char::is_whitespace`, the Unicode `White_Space` property).
For every input, `trim_trailing_whitespace` strips trailing whitespace
from each line (terminator excluded), reassembles the lines joined by
a single `'\n'` terminator, and returns `modified = true` iff some
line's trimmed length differs from that line's original length; the
empty input and inputs consisting only of line terminators yield
`modified = false`. -/
theorem trim_matches_spec (s : List Char) :
    trim_trailing_whitespace s = trimSpecWith isRustWhitespace s ∧
    ((trim_trailing_whitespace s).modified = true ↔
      ∃ l ∈ rustLines s, (trimEnd l).length ≠ l.length) ∧
    (trim_trailing_whitespace []).modified = false ∧
    (TermOnly s → (trim_trailing_whitespace s).modified = false) := by
  refine ⟨trim_eq_spec s, ?_, by decide, ?_⟩
  · rw [trim_modified_eq]
    simp [List.any_eq_true, bne_iff_ne]
  · intro hterm
    rw [trim_modified_eq, List.any_eq_false]
    intro l hl
    rw [termOnly_lines_nil hterm l hl]
    decide

/-- Claim C2 (witness). -/
theorem trim_matches_spec_w :
    (trim_trailing_whitespace ['\r', '\n', '\n']).modified = false :=
  (trim_matches_spec ['\r', '\n', '\n']).2.2.2 (.crlf (.lf .nil))

/-! ### Claim C3 -/

/-- Claim C3.  `\r\n` is a line terminator, not trimmable content:
`"line   \r\n"` becomes `"line\n"` with `modified = true`, and
`"line\r\n"` becomes `"line\n"` with `modified = false`. -/
theorem trim_crlf_examples :
    trim_trailing_whitespace "line   \r\n".toList = ⟨"line\n".toList, true⟩ ∧
    trim_trailing_whitespace "line\r\n".toList = ⟨"line\n".toList, false⟩ := by
  decide

/-! ### Claim C4 -/

/-- Claim C4 (counterexample).  The input `"\n "` does not end with a
newline, yet the output (`"\n"`: the whitespace-only final line trims
to empty) does; and the input `"\n\n"` ends with a newline while the
output `"\n\n"` ends with two newlines, not exactly one.  Both halves
of the claim as stated are therefore false. -/
theorem trim_terminator_cex :
    ¬ endsWithNl "\n ".toList ∧
    endsWithNl (trim_trailing_whitespace "\n ".toList).content ∧
    (trim_trailing_whitespace "\n ".toList).content = ['\n'] ∧
    endsWithNl "\n\n".toList ∧
    (trim_trailing_whitespace "\n\n".toList).content = ['\n', '\n'] := by
  decide

/-- Claim C4 (amended).  If the input ends with a newline then the output
ends with a newline (an input ending in several newlines keeps them
all); and if the input does not end with a newline and its final line
does not trim to empty (i.e. the final unterminated line is not
entirely whitespace), then the output does not end with a newline. -/
theorem trim_terminator_amended (s : List Char) :
    (endsWithNl s → endsWithNl (trim_trailing_whitespace s).content) ∧
    (¬ endsWithNl s →
      (∀ l, (rustLines s).getLast? = some l → trimEnd l ≠ []) →
      ¬ endsWithNl (trim_trailing_whitespace s).content) := by
  constructor
  · intro hend
    have hs : s ≠ [] := by
      intro hh
      rw [hh] at hend
      exact Option.noConfusion hend
    have hTne : (rustLines s).map trimEnd ≠ [] := by
      intro hh
      exact rustLines_ne_nil hs (List.map_eq_nil_iff.1 hh)
    rw [trim_content_eq s, if_neg (fun hand => hand.1 hend)]
    exact getLast?_rejoin hTne
  · intro hnend hlast
    by_cases hs : s = []
    · subst hs
      intro hend
      exact Option.noConfusion hend
    · have hLne : rustLines s ≠ [] := rustLines_ne_nil hs
      have hgl : (rustLines s).getLast? = some ((rustLines s).getLast hLne) :=
        List.getLast?_eq_getLast _ hLne
      have htne : trimEnd ((rustLines s).getLast hLne) ≠ [] := hlast _ hgl
      have hdecomp : rustLines s = (rustLines s).dropLast ++ [(rustLines s).getLast hLne] :=
        (List.dropLast_append_getLast hLne).symm
      have hmem : (rustLines s).getLast hLne ∈ rustLines s := mem_of_getLast?_eq hgl
      have hTne : rejoin ((rustLines s).map trimEnd) ≠ [] := by
        rw [Ne, rejoin_eq_nil]
        intro hh
        exact rustLines_ne_nil hs (List.map_eq_nil_iff.1 hh)
      rw [trim_content_eq s, if_pos ⟨hnend, hTne⟩]
      have hout : (rejoin ((rustLines s).map trimEnd)).dropLast
          = rejoin ((rustLines s).dropLast.map trimEnd)
            ++ trimEnd ((rustLines s).getLast hLne) := by
        conv_lhs => rw [hdecomp]
        rw [List.map_append, List.map_singleton, rejoin_append_singleton,
          ← List.append_assoc, List.dropLast_concat]
      rw [hout]
      intro hend
      unfold endsWithNl at hend
      rw [List.getLast?_append_of_ne_nil _ htne] at hend
      have : '\n' ∈ trimEnd ((rustLines s).getLast hLne) := mem_of_getLast?_eq hend
      exact not_nl_mem_rustLines s _ hmem (mem_of_mem_trimEndWith this)

/-- Claim C4 (amended, witness): at the input `"ab"` (no final newline,
final line not all whitespace) the output has no final newline. -/
theorem trim_terminator_amended_w :
    ¬ endsWithNl (trim_trailing_whitespace "ab".toList).content :=
  (trim_terminator_amended "ab".toList).2 (by decide)
    (fun l hl => by
      rw [show (rustLines "ab".toList).getLast? = some ['a', 'b'] from by decide] at hl
      cases hl
      decide)

/-! ### Claim C9 -/

/-- Claim C9.  For every input string, no line of the transformer's
output ends in a space or tab character. -/
theorem trim_no_trailing_space_tab (s : List Char) :
    ∀ l ∈ rustLines (trim_trailing_whitespace s).content,
      l.getLast? ≠ some ' ' ∧ l.getLast? ≠ some '\t' := by
  intro l hl
  have hfix : FixedLine l := fixedLine_mem_map_trimEnd (mem_map_trimEnd_of_mem_trim hl)
  constructor
  · intro h
    exact absurd (fixedLine_getLast hfix h) (by decide)
  · intro h
    exact absurd (fixedLine_getLast hfix h) (by decide)

/-- Claim C9 (witness): the single output line of trimming `" x \n"`
is `" x"`, which ends in `'x'`, not in a space or tab. -/
theorem trim_no_trailing_space_tab_w :
    ([' ', 'x'].getLast? ≠ some ' ') ∧ ([' ', 'x'].getLast? ≠ some '\t') :=
  trim_no_trailing_space_tab " x \n".toList [' ', 'x'] (by decide)

/-! ### Facts about the filesystem model -/

theorem Fs.update_self (fs : Fs) (p : String) (e : Option Entry) :
    fs.update p e p = e := by
  simp [Fs.update]

theorem Fs.update_other (fs : Fs) {p q : String} (e : Option Entry) (h : q ≠ p) :
    fs.update p e q = fs q := by
  simp [Fs.update, h]

/-! ### Claim C1 -/

/-- Claim C1 (counterexample).  With every syscall succeeding except
`write_all`, `process_file` fails with the write error but leaves the
just-created temporary file on disk (the code propagates the `?` error
without removing it), so "on every failure path the temporary sibling
file is removed" is false; the sync-failure path behaves the same
way. -/
theorem process_file_leak_cex :
    (process_file false "a.txt" ".a.txt.tmp" ⟨true, false, true, true, true⟩
        (fun q => if q = "a.txt" then some (.file [' ', '\n'] 0o644) else none)).res
      = .error .writeFail ∧
    (process_file false "a.txt" ".a.txt.tmp" ⟨true, false, true, true, true⟩
        (fun q => if q = "a.txt" then some (.file [' ', '\n'] 0o644) else none)).fs ".a.txt.tmp"
      = some (.file [] createMode) ∧
    some (Entry.file [] createMode) ≠ none := by
  refine ⟨rfl, rfl, by simp⟩

/-- Claim C1 (amended).  On the permission-copy and rename failure paths
the temporary file is removed before the error propagates, and a
successful run leaves no temporary file; on every failure path the
original file is untouched.  (On a content-write or sync failure the
temporary file is *not* removed, and on the temp-already-exists path
the pre-existing file at the temporary path is left in place.) -/
theorem process_file_cleanup (v : Bool) (p tp : String) (orc : Oracle) (fs : Fs)
    (data : List Char) (mode : Nat) (hptp : p ≠ tp)
    (hp : fs p = some (.file data mode)) (htp : fs tp = none) :
    (∀ e, (process_file v p tp orc fs).res = .error e →
      (process_file v p tp orc fs).fs p = fs p) ∧
    ((process_file v p tp orc fs).res = .error .chmodFail →
      (process_file v p tp orc fs).fs tp = none) ∧
    ((process_file v p tp orc fs).res = .error .renameFail →
      (process_file v p tp orc fs).fs tp = none) ∧
    ((process_file v p tp orc fs).res = .ok () →
      (process_file v p tp orc fs).fs tp = none) := by
  have hq : tp ≠ p := Ne.symm hptp
  rcases orc with ⟨co, wo, so, cho, ro⟩
  by_cases hm : (trim_trailing_whitespace data).modified = true
  · cases co <;> cases wo <;> cases so <;> cases cho <;> cases ro <;>
      simp_all [process_file, Fs.update, hptp, hq]
  · simp_all [process_file, Fs.update]

/-- Claim C1 (amended, witness): on a rename failure the temporary file
is gone afterwards. -/
theorem process_file_cleanup_w :
    PfResult.fs (process_file false "a.txt" ".a.txt.tmp" ⟨true, true, true, true, false⟩
        (fun q => if q = "a.txt" then some (.file [' ', '\n'] 0o644) else none))
      ".a.txt.tmp" = none :=
  (process_file_cleanup false "a.txt" ".a.txt.tmp" ⟨true, true, true, true, false⟩
    (fun q => if q = "a.txt" then some (.file [' ', '\n'] 0o644) else none)
    [' ', '\n'] 0o644 (by decide) rfl rfl).2.2.1 rfl

/-! ### Claim C5 -/

/-- Claim C5 (counterexample).  Invoked on a directory, `process_file`
returns `Ok(())` with no message and no filesystem change — it
silently succeeds instead of failing fast with an error as the claim
states (the guard at src/main.rs:296 is `return Ok(())`). -/
theorem process_file_dir_cex :
    (process_file false "d" ".d.tmp" ⟨true, true, true, true, true⟩
        (fun q => if q = "d" then some .dir else none)).res = .ok () ∧
    (process_file false "d" ".d.tmp" ⟨true, true, true, true, true⟩
        (fun q => if q = "d" then some .dir else none)).log = [] ∧
    (process_file false "d" ".d.tmp" ⟨true, true, true, true, true⟩
        (fun q => if q = "d" then some .dir else none)).fs "d" = some .dir := by
  refine ⟨rfl, rfl, rfl⟩

/-- Claim C5 (amended).  When single-file processing is invoked on a path
whose metadata indicates it is neither a symlink nor a plain regular
file (a directory or other special file), it is a silent no-op: it
returns success, prints nothing, and leaves the filesystem unchanged.
(Only folder mode fails fast on a non-directory root.) -/
theorem process_file_non_regular (v : Bool) (p tp : String) (orc : Oracle) (fs : Fs)
    (h : fs p = some .dir ∨ fs p = some .other) :
    (process_file v p tp orc fs).res = .ok () ∧
    (∀ q, (process_file v p tp orc fs).fs q = fs q) ∧
    (process_file v p tp orc fs).log = [] := by
  rcases h with h | h <;> exact ⟨by simp [process_file, h], fun q => by simp [process_file, h],
    by simp [process_file, h]⟩

/-- Claim C5 (amended, witness). -/
theorem process_file_non_regular_w :
    (process_file true "d" ".d.tmp" ⟨true, true, true, true, true⟩
        (fun q => if q = "d" then some .dir else none)).res = .ok () :=
  (process_file_non_regular true "d" ".d.tmp" ⟨true, true, true, true, true⟩
    (fun q => if q = "d" then some .dir else none) (Or.inl rfl)).1

/-! ### Claim C6 -/

/-- Claim C6.  On a path whose non-dereferencing metadata classifies it
as a symlink, processing is a no-op that reports a skip and returns
success: `run` in file mode prints an informational notice when
verbose and a warning otherwise, `process_file` (the defense-in-depth
recheck) prints the verbose-only notice; neither ever opens, reads or
writes through the path, so every filesystem entry — in particular the
link's target content — is byte-for-byte unchanged. -/
theorem symlink_noop (v : Bool) (p tp : String) (orc : Oracle) (fs : Fs)
    (h : fs p = some .symlink) :
    (run_file v p tp orc fs).res = .ok () ∧
    (∀ q, (run_file v p tp orc fs).fs q = fs q) ∧
    (run_file v p tp orc fs).log = [if v then .skippedSymlink p else .warnSymlink p] ∧
    (process_file v p tp orc fs).res = .ok () ∧
    (∀ q, (process_file v p tp orc fs).fs q = fs q) ∧
    (process_file v p tp orc fs).log = (if v then [.skippedSymlink p] else []) := by
  refine ⟨?_, fun q => ?_, ?_, ?_, fun q => ?_, ?_⟩ <;> simp [run_file, process_file, h]

/-- Claim C6 (witness). -/
theorem symlink_noop_w :
    (run_file true "l" ".l.tmp" ⟨true, true, true, true, true⟩
        (fun q => if q = "l" then some .symlink else none)).res = .ok () ∧
    (run_file true "l" ".l.tmp" ⟨true, true, true, true, true⟩
        (fun q => if q = "l" then some .symlink else none)).fs "l" = some Entry.symlink :=
  ⟨(symlink_noop true "l" ".l.tmp" ⟨true, true, true, true, true⟩ _ rfl).1,
   ((symlink_noop true "l" ".l.tmp" ⟨true, true, true, true, true⟩ _ rfl).2.1 "l").trans rfl⟩

/-! ### Claim C7 -/

/-- Claim C7.  The transform is idempotent: applying
`trim_trailing_whitespace` to the `content` of its own result yields
`modified = false` and the same content; and since the writer runs
only when `modified = true`, `process_file` on a file whose content
trims to itself returns success and leaves the filesystem — hence the
file's modification time and permissions — completely untouched. -/
theorem trim_idempotent (s : List Char) :
    trim_trailing_whitespace (trim_trailing_whitespace s).content
      = ⟨(trim_trailing_whitespace s).content, false⟩ ∧
    (∀ (v : Bool) (p tp : String) (orc : Oracle) (fs : Fs) (data : List Char) (mode : Nat),
      fs p = some (.file data mode) →
      (trim_trailing_whitespace data).modified = false →
      (process_file v p tp orc fs).res = .ok () ∧
      ∀ q, (process_file v p tp orc fs).fs q = fs q) := by
  refine ⟨trim_idem_core s, ?_⟩
  intro v p tp orc fs data mode hp hm
  exact ⟨by simp [process_file, hp, hm], fun q => by simp [process_file, hp, hm]⟩

/-- Claim C7 (witness): reprocessing the already-trimmed file
`"x\n"` succeeds and changes nothing. -/
theorem trim_idempotent_w :
    (process_file false "c.txt" ".c.txt.tmp" ⟨true, true, true, true, true⟩
        (fun q => if q = "c.txt" then some (.file ['x', '\n'] 0o644) else none)).res = .ok () ∧
    (process_file false "c.txt" ".c.txt.tmp" ⟨true, true, true, true, true⟩
        (fun q => if q = "c.txt" then some (.file ['x', '\n'] 0o644) else none)).fs "c.txt"
      = some (Entry.file ['x', '\n'] 0o644) :=
  ⟨((trim_idempotent []).2 false "c.txt" ".c.txt.tmp" ⟨true, true, true, true, true⟩ _
      ['x', '\n'] 0o644 rfl (by decide)).1,
   (((trim_idempotent []).2 false "c.txt" ".c.txt.tmp" ⟨true, true, true, true, true⟩ _
      ['x', '\n'] 0o644 rfl (by decide)).2 "c.txt").trans rfl⟩

/-! ### Claim C8 -/

/-- Claim C8.  When the writer runs and succeeds (modified content,
every syscall succeeding), the file at the target path afterwards
carries exactly the permission bits captured from the original file's
metadata at the start of processing. -/
theorem process_file_preserves_mode (v : Bool) (p tp : String) (fs : Fs)
    (data : List Char) (mode : Nat) (hptp : p ≠ tp)
    (hp : fs p = some (.file data mode)) (htp : fs tp = none)
    (hm : (trim_trailing_whitespace data).modified = true) :
    (process_file v p tp ⟨true, true, true, true, true⟩ fs).res = .ok () ∧
    (process_file v p tp ⟨true, true, true, true, true⟩ fs).fs p
      = some (.file (trim_trailing_whitespace data).content mode) := by
  have hq : tp ≠ p := Ne.symm hptp
  exact ⟨by simp [process_file, hp, htp, hm, Fs.update, hptp, hq],
    by simp [process_file, hp, htp, hm, Fs.update, hptp, hq]⟩

/-- Claim C8 (witness): a file with mode `0o754` retains exactly `0o754`
after a modifying rewrite. -/
theorem process_file_preserves_mode_w :
    PfResult.fs (process_file false "m.txt" ".m.txt.tmp" ⟨true, true, true, true, true⟩
        (fun q => if q = "m.txt" then some (.file [' ', 'x', ' ', '\n'] 0o754) else none))
      "m.txt" = some (Entry.file [' ', 'x', '\n'] 0o754) := by
  have h := (process_file_preserves_mode false "m.txt" ".m.txt.tmp"
    (fun q => if q = "m.txt" then some (.file [' ', 'x', ' ', '\n'] 0o754) else none)
    [' ', 'x', ' ', '\n'] 0o754 (by decide) rfl rfl (by decide)).2
  rw [h]
  decide

/-! ### Claim C10 -/

/-- Claim C10.  `modified = false` does not imply that the returned
content equals the input: on any input whose lines all trim to
themselves (no trailing whitespace beyond the terminators) and which
ends with `"\r\n"`, the transformer reports `modified = false` yet
returns content different from the input (the `'\r'` is gone); and
because the writer is gated on `modified`, `process_file` leaves such
a CRLF-terminated file byte-for-byte unchanged on disk. -/
theorem crlf_unmodified_not_identity (s : List Char)
    (hfixed : ∀ l ∈ rustLines s, trimEnd l = l)
    (hcrlf : ∃ s₀, s = s₀ ++ ['\r', '\n']) :
    (trim_trailing_whitespace s).modified = false ∧
    (trim_trailing_whitespace s).content ≠ s ∧
    (∀ (v : Bool) (p tp : String) (orc : Oracle) (fs : Fs) (mode : Nat),
      fs p = some (.file s mode) →
      (process_file v p tp orc fs).res = .ok () ∧
      ∀ q, (process_file v p tp orc fs).fs q = fs q) := by
  have hfix : ∀ l ∈ rustLines s, FixedLine l :=
    fun l hl => ⟨not_nl_mem_rustLines s l hl, hfixed l hl⟩
  have hmod : (trim_trailing_whitespace s).modified = false := by
    rw [trim_modified_eq, List.any_eq_false]
    intro l hl
    rw [hfixed l hl]
    simp
  refine ⟨hmod, ?_, ?_⟩
  · obtain ⟨s₀, rfl⟩ := hcrlf
    have hend : endsWithNl (s₀ ++ ['\r', '\n']) := by
      unfold endsWithNl
      rw [show s₀ ++ ['\r', '\n'] = (s₀ ++ ['\r']) ++ ['\n'] by simp, List.getLast?_concat]
    have hsne : s₀ ++ ['\r', '\n'] ≠ [] := by simp
    have hLne : rustLines (s₀ ++ ['\r', '\n']) ≠ [] := rustLines_ne_nil hsne
    rw [trim_content_eq, if_neg (fun hand => hand.1 hend),
      map_trimEnd_of_fixed hfix]
    intro heq
    have hrhs : (s₀ ++ ['\r', '\n']).dropLast.getLast? = some '\r' := by
      rw [show s₀ ++ ['\r', '\n'] = (s₀ ++ ['\r']) ++ ['\n'] by simp, List.dropLast_concat,
        List.getLast?_concat]
    have hdl : (rejoin (rustLines (s₀ ++ ['\r', '\n']))).dropLast.getLast? = some '\r' := by
      rw [heq]
      exact hrhs
    obtain ⟨L₀, t, hdecomp⟩ :
        ∃ L₀ t, rustLines (s₀ ++ ['\r', '\n']) = L₀ ++ [t] :=
      ⟨_, _, (List.dropLast_append_getLast hLne).symm⟩
    rw [hdecomp, rejoin_append_singleton, ← List.append_assoc, List.dropLast_concat] at hdl
    have hfixt : FixedLine t := by
      refine hfix t ?_
      rw [hdecomp]
      exact List.mem_append.2 (Or.inr (List.mem_singleton.2 rfl))
    by_cases htne : t = []
    · subst htne
      rw [List.append_nil] at hdl
      by_cases hL₀ : L₀ = []
      · subst hL₀
        exact Option.noConfusion hdl
      · rw [getLast?_rejoin hL₀] at hdl
        exact absurd (Option.some.inj hdl) (by decide)
    · rw [List.getLast?_append_of_ne_nil _ htne] at hdl
      exact absurd (fixedLine_getLast hfixt hdl) (by decide)
  · intro v p tp orc fs mode hp
    exact ⟨by simp [process_file, hp, hmod], fun q => by simp [process_file, hp, hmod]⟩

/-- Claim C10 (witness): `"line\r\n"` is reported unmodified yet the
returned content `"line\n"` differs from it. -/
theorem crlf_unmodified_not_identity_w :
    (trim_trailing_whitespace "line\r\n".toList).modified = false ∧
    (trim_trailing_whitespace "line\r\n".toList).content ≠ "line\r\n".toList :=
  ⟨(crlf_unmodified_not_identity "line\r\n".toList (by decide)
      ⟨"line".toList, by decide⟩).1,
   (crlf_unmodified_not_identity "line\r\n".toList (by decide)
      ⟨"line".toList, by decide⟩).2.1⟩

end Rtrim
